import Mathlib

/-!
Shallow embedding of the 3D Conway engine from `src/app/utils/conwayLogic.ts`
and `src/app/types/conway.ts`.

Cell keys (JavaScript strings such as "4,5,5") are modelled as `List Char`.
JavaScript `Set<string>` state is modelled as `List Key` (insertion order kept,
membership by string equality); freshly built result sets are `Finset Key`.
Integer coordinates are `ℤ`; the JS template literal becomes decimal
rendering, and `Number` parsing of a decimal literal becomes `parseIntChars`.
-/

namespace Conway3D

/-- Cell coordinates: the TS type `CellPosition = [number, number, number]`. -/
abbrev CellPosition := ℤ × ℤ × ℤ

/-- A serialized cell key: the content of the JS string `"x,y,z"`. -/
abbrev Key := List Char

/-- Character for one decimal digit, as JS number-to-string rendering emits it. -/
def digitChar (d : ℕ) : Char := Char.ofNat (48 + d)

/-- Little-endian decimal digits of a natural number, with explicit fuel
(the JS runtime renders the canonical decimal form of an integer). -/
def natToDigitsRev : ℕ → ℕ → List ℕ
  | 0, _ => []
  | fuel + 1, n => if n < 10 then [n] else n % 10 :: natToDigitsRev fuel (n / 10)

/-- Decimal character rendering of a natural number, most significant first. -/
def natToChars (n : ℕ) : List Char := ((natToDigitsRev (n + 1) n).map digitChar).reverse

/-- Decimal character rendering of an integer, as the JS template literal
produces it: a minus sign followed by digits for negatives, plain digits
otherwise. -/
def intToChars (n : ℤ) : List Char :=
  if n < 0 then '-' :: natToChars n.natAbs else natToChars n.toNat

/-- Numeric value of a decimal digit character. -/
def charVal (c : Char) : ℕ := c.toNat - 48

/-- Value of a big-endian decimal digit string, as JS `Number` reads one. -/
def parseNatChars (s : List Char) : ℕ := s.foldl (fun acc c => 10 * acc + charVal c) 0

/-- Integer value of a decimal literal with optional leading minus sign,
as JS `Number` reads the strings produced by `intToChars`. -/
def parseIntChars (s : List Char) : ℤ :=
  match s with
  | c :: rest => if c = '-' then -(parseNatChars rest : ℤ) else (parseNatChars s : ℤ)
  | [] => 0

/-- `serializePosition` from `src/app/types/conway.ts`: the template literal
`"x,y,z"` over the three coordinates. -/
def serializePosition (pos : CellPosition) : Key :=
  intToChars pos.1 ++ ',' :: (intToChars pos.2.1 ++ ',' :: intToChars pos.2.2)

/-- Splitting accumulator for `splitOnComma`, mirroring JS `String.split(',')`. -/
def splitOnCommaAux : List Char → List Char → List (List Char)
  | [], acc => [acc.reverse]
  | c :: rest, acc =>
      if c = ',' then acc.reverse :: splitOnCommaAux rest [] else splitOnCommaAux rest (c :: acc)

/-- JS `key.split(',')` on the character-list model of the string. -/
def splitOnComma (s : List Char) : List (List Char) := splitOnCommaAux s []

/-- `deserializePosition` from `src/app/types/conway.ts`:
`key.split(',').map(Number) as CellPosition`. A key that does not split into
exactly three components violates the codec contract (the TS code would
produce `NaN` components there); the model returns a junk triple in that
unreachable branch. -/
def deserializePosition (key : Key) : CellPosition :=
  match splitOnComma key with
  | [a, b, c] => (parseIntChars a, parseIntChars b, parseIntChars c)
  | _ => (0, 0, 0)

/-! Roundtrip facts about the decimal codec. -/

theorem charVal_digitChar {d : ℕ} (hd : d < 10) : charVal (digitChar d) = d := by
  interval_cases d <;> decide

theorem digitChar_ne_comma {d : ℕ} (hd : d < 10) : digitChar d ≠ ',' := by
  interval_cases d <;> decide

theorem digitChar_ne_minus {d : ℕ} (hd : d < 10) : digitChar d ≠ '-' := by
  interval_cases d <;> decide

theorem natToDigitsRev_lt {fuel n : ℕ} : ∀ d ∈ natToDigitsRev fuel n, d < 10 := by
  induction fuel generalizing n with
  | zero => simp [natToDigitsRev]
  | succ fuel ih =>
      intro d hd
      by_cases h : n < 10
      · simp [natToDigitsRev, h] at hd; omega
      · simp only [natToDigitsRev, if_neg h, List.mem_cons] at hd
        rcases hd with h1 | h2
        · omega
        · exact ih _ h2

theorem natToDigitsRev_ne_nil {fuel n : ℕ} : natToDigitsRev (fuel + 1) n ≠ [] := by
  by_cases h : n < 10 <;> simp [natToDigitsRev, h]

/-- Value of a little-endian digit list. -/
def ofDigitsRev (ds : List ℕ) : ℕ := ds.foldr (fun d acc => 10 * acc + d) 0

theorem ofDigitsRev_natToDigitsRev {fuel n : ℕ} (h : n ≤ fuel) :
    ofDigitsRev (natToDigitsRev fuel n) = n := by
  induction fuel generalizing n with
  | zero =>
      have hn : n = 0 := by omega
      simp [natToDigitsRev, ofDigitsRev, hn]
  | succ fuel ih =>
      by_cases hlt : n < 10
      · simp [natToDigitsRev, hlt, ofDigitsRev]
      · have hdiv : n / 10 ≤ fuel := by omega
        simp only [natToDigitsRev, if_neg hlt, ofDigitsRev, List.foldr_cons]
        have := ih hdiv
        unfold ofDigitsRev at this
        rw [this]
        omega

theorem parseNatChars_natToChars (n : ℕ) : parseNatChars (natToChars n) = n := by
  unfold parseNatChars natToChars
  rw [List.foldl_reverse]
  have hall : ∀ d ∈ natToDigitsRev (n + 1) n, d < 10 := natToDigitsRev_lt
  have hfold : ∀ ds : List ℕ, (∀ d ∈ ds, d < 10) →
      (ds.map digitChar).foldr (fun c acc => 10 * acc + charVal c) 0 = ofDigitsRev ds := by
    intro ds hds
    induction ds with
    | nil => simp [ofDigitsRev]
    | cons d rest ihr =>
        simp only [List.map_cons, List.foldr_cons, ofDigitsRev]
        rw [ihr (fun x hx => hds x (List.mem_cons_of_mem _ hx))]
        rw [charVal_digitChar (hds d (List.mem_cons_self _ _))]
        rfl
  rw [hfold _ hall, ofDigitsRev_natToDigitsRev (Nat.le_succ n)]

theorem natToChars_ne_nil (n : ℕ) : natToChars n ≠ [] := by
  unfold natToChars
  intro h
  rw [List.reverse_eq_nil_iff, List.map_eq_nil_iff] at h
  exact natToDigitsRev_ne_nil h

theorem mem_natToChars_digit {n : ℕ} {c : Char} (hc : c ∈ natToChars n) :
    ∃ d, d < 10 ∧ c = digitChar d := by
  unfold natToChars at hc
  rw [List.mem_reverse, List.mem_map] at hc
  obtain ⟨d, hd, rfl⟩ := hc
  exact ⟨d, natToDigitsRev_lt d hd, rfl⟩

theorem natToChars_head_ne_minus (n : ℕ) : ∀ c ∈ natToChars n, c ≠ '-' := by
  intro c hc
  obtain ⟨d, hd10, rfl⟩ := mem_natToChars_digit hc
  exact digitChar_ne_minus hd10

theorem comma_not_mem_intToChars (n : ℤ) : ',' ∉ intToChars n := by
  unfold intToChars
  by_cases h : n < 0
  · simp only [if_pos h, List.mem_cons]
    rintro (h1 | h2)
    · exact absurd h1.symm (by decide)
    · obtain ⟨d, hd10, hc⟩ := mem_natToChars_digit h2
      exact digitChar_ne_comma hd10 hc.symm
  · simp only [if_neg h]
    intro h2
    obtain ⟨d, hd10, hc⟩ := mem_natToChars_digit h2
    exact digitChar_ne_comma hd10 hc.symm

theorem parseIntChars_intToChars (n : ℤ) : parseIntChars (intToChars n) = n := by
  unfold intToChars
  by_cases h : n < 0
  · rw [if_pos h]
    have hstep : parseIntChars ('-' :: natToChars n.natAbs) =
        -(parseNatChars (natToChars n.natAbs) : ℤ) := rfl
    rw [hstep, parseNatChars_natToChars]
    omega
  · simp only [if_neg h]
    rcases hne : natToChars n.toNat with _ | ⟨c, rest⟩
    · exact absurd hne (natToChars_ne_nil _)
    · have hcm : c ≠ '-' := natToChars_head_ne_minus n.toNat c (hne ▸ List.mem_cons_self _ _)
      simp only [parseIntChars, if_neg hcm]
      rw [← hne, parseNatChars_natToChars]
      omega

theorem splitOnCommaAux_no_comma {s : List Char} (hs : ',' ∉ s) (acc : List Char) :
    splitOnCommaAux s acc = [acc.reverse ++ s] := by
  induction s generalizing acc with
  | nil => simp [splitOnCommaAux]
  | cons c rest ih =>
      have hc : c ≠ ',' := fun h => hs (h ▸ List.mem_cons_self _ _)
      have hrest : ',' ∉ rest := fun h => hs (List.mem_cons_of_mem _ h)
      simp only [splitOnCommaAux, if_neg hc]
      rw [ih hrest]
      simp

theorem splitOnCommaAux_append {s : List Char} (hs : ',' ∉ s) (t : List Char)
    (acc : List Char) :
    splitOnCommaAux (s ++ ',' :: t) acc = (acc.reverse ++ s) :: splitOnCommaAux t [] := by
  induction s generalizing acc with
  | nil => simp [splitOnCommaAux]
  | cons c rest ih =>
      have hc : c ≠ ',' := fun h => hs (h ▸ List.mem_cons_self _ _)
      have hrest : ',' ∉ rest := fun h => hs (List.mem_cons_of_mem _ h)
      simp only [List.cons_append, splitOnCommaAux, if_neg hc, List.append_eq]
      rw [ih hrest]
      simp

theorem splitOnComma_serializePosition (p : CellPosition) :
    splitOnComma (serializePosition p) =
      [intToChars p.1, intToChars p.2.1, intToChars p.2.2] := by
  unfold splitOnComma serializePosition
  rw [splitOnCommaAux_append (comma_not_mem_intToChars _),
    splitOnCommaAux_append (comma_not_mem_intToChars _),
    splitOnCommaAux_no_comma (comma_not_mem_intToChars _)]
  simp

theorem deserialize_serialize (p : CellPosition) :
    deserializePosition (serializePosition p) = p := by
  unfold deserializePosition
  rw [splitOnComma_serializePosition]
  simp only [parseIntChars_intToChars]

theorem serializePosition_injective : Function.Injective serializePosition := by
  intro a b h
  have := congrArg deserializePosition h
  rwa [deserialize_serialize, deserialize_serialize] at this

/-! The engine from `src/app/utils/conwayLogic.ts`. -/

/-- The TS interface `GameState`. The JS `Set<string>` of active cells is
modelled as the list of its elements in insertion/iteration order;
membership is string (key) equality. -/
structure GameState where
  activeCells : List Key
  gridSize : ℤ
  running : Bool
  speed : ℚ

/-- The 26 offsets enumerated by the triple `for dx/dy/dz in -1..1` loop,
skipping `(0,0,0)`. -/
def neighborDeltas : List (ℤ × ℤ × ℤ) :=
  (([-1, 0, 1] : List ℤ).flatMap fun dx =>
    (([-1, 0, 1] : List ℤ).flatMap fun dy =>
      (([-1, 0, 1] : List ℤ).map fun dz => (dx, dy, dz)))).filter
    fun d => d ≠ ((0 : ℤ), (0 : ℤ), (0 : ℤ))

/-- `countNeighbors` from `conwayLogic.ts`: for each of the 26 offsets,
serialize the shifted position and test membership in the active set. -/
def countNeighbors (pos : CellPosition) (activeCells : List Key) : ℕ :=
  (neighborDeltas.filter fun d =>
    serializePosition (pos.1 + d.1, pos.2.1 + d.2.1, pos.2.2 + d.2.2) ∈ activeCells).length

/-- The inner loop of `computeNextGeneration` that, for one active cell,
adds the serialized neighbors passing the bounds check
`!neighborPos.some(coord => coord < 0 || coord >= gridSize)`. -/
def neighborKeysInBounds (gridSize : ℤ) (cell : Key) : Finset Key :=
  (((neighborDeltas.map fun d =>
      ((deserializePosition cell).1 + d.1,
       (deserializePosition cell).2.1 + d.2.1,
       (deserializePosition cell).2.2 + d.2.2)).filter fun q =>
      ¬(q.1 < 0 ∨ gridSize ≤ q.1 ∨ q.2.1 < 0 ∨ gridSize ≤ q.2.1 ∨
        q.2.2 < 0 ∨ gridSize ≤ q.2.2)).map serializePosition).toFinset

/-- The `cellsToCheck` set of `computeNextGeneration`: all active cells,
plus the in-bounds neighbors of every active cell. -/
def cellsToCheck (gameState : GameState) : Finset Key :=
  gameState.activeCells.toFinset ∪
    gameState.activeCells.foldr
      (fun cell acc => neighborKeysInBounds gameState.gridSize cell ∪ acc) ∅

/-- `computeNextGeneration` from `conwayLogic.ts`: keep a candidate key when
it is alive with 4..6 active neighbors, or dead with 5..7 active neighbors. -/
def computeNextGeneration (gameState : GameState) : Finset Key :=
  (cellsToCheck gameState).filter fun cellKey =>
    (cellKey ∈ gameState.activeCells ∧
      4 ≤ countNeighbors (deserializePosition cellKey) gameState.activeCells ∧
      countNeighbors (deserializePosition cellKey) gameState.activeCells ≤ 6) ∨
    (cellKey ∉ gameState.activeCells ∧
      5 ≤ countNeighbors (deserializePosition cellKey) gameState.activeCells ∧
      countNeighbors (deserializePosition cellKey) gameState.activeCells ≤ 7)

/-- `generateRandomCells` from `conwayLogic.ts`. `Math.random()` is modelled
as an externally supplied stream `rand` of rationals (call number `3*i + k`
is the k-th draw of loop iteration `i`); `Math.floor(x)` is `Int.floor` and
the literal `0.1` is the rational `1/10`. -/
def generateRandomCells (gridSize : ℤ) (rand : ℕ → ℚ) : Finset Key :=
  ((List.range (Int.floor ((gridSize : ℚ) * gridSize * gridSize * (1 / 10))).toNat).map
    fun i =>
      serializePosition
        (Int.floor (rand (3 * i) * gridSize),
         Int.floor (rand (3 * i + 1) * gridSize),
         Int.floor (rand (3 * i + 2) * gridSize))).toFinset

/-! Specification-level definitions, written from the wording of the spec
(`spec.md` §4.2, §4.3) over plain coordinate sets, to be compared with the
key-level engine above. -/

/-- Spec wording: the 26 coordinates differing from `c` by −1, 0, or +1 in
each axis, excluding `c` itself. -/
def neighborsSpec (c : CellPosition) : Finset CellPosition :=
  ((Finset.Icc (c.1 - 1) (c.1 + 1)) ×ˢ
    (Finset.Icc (c.2.1 - 1) (c.2.1 + 1)) ×ˢ
    (Finset.Icc (c.2.2 - 1) (c.2.2 + 1))).erase c

/-- Spec wording: number of the 26 neighbor coordinates present in `active`. -/
def countActiveNeighborsSpec (c : CellPosition) (active : Finset CellPosition) : ℕ :=
  ((neighborsSpec c).filter (· ∈ active)).card

/-- Spec wording: each axis value lies in `[0, gridSize)`. -/
def inBoundsSpec (gridSize : ℤ) (q : CellPosition) : Prop :=
  0 ≤ q.1 ∧ q.1 < gridSize ∧ 0 ≤ q.2.1 ∧ q.2.1 < gridSize ∧
    0 ≤ q.2.2 ∧ q.2.2 < gridSize

instance (gridSize : ℤ) : DecidablePred (inBoundsSpec gridSize) := fun q => by
  unfold inBoundsSpec
  infer_instance

/-- Spec wording: every coordinate in `active` (unconditionally), unioned
with every in-bounds neighbor of a coordinate in `active`. -/
def candidatesSpec (active : Finset CellPosition) (gridSize : ℤ) : Finset CellPosition :=
  active ∪ active.biUnion fun c => (neighborsSpec c).filter (inBoundsSpec gridSize)

/-- Spec wording of one generation step: a candidate is kept when it is
alive with neighbor count in [4,6], or dead with neighbor count in [5,7]. -/
def stepSpec (active : Finset CellPosition) (gridSize : ℤ) : Finset CellPosition :=
  (candidatesSpec active gridSize).filter fun c =>
    (c ∈ active ∧ 4 ≤ countActiveNeighborsSpec c active ∧
      countActiveNeighborsSpec c active ≤ 6) ∨
    (c ∉ active ∧ 5 ≤ countActiveNeighborsSpec c active ∧
      countActiveNeighborsSpec c active ≤ 7)

/-! Bridging lemmas: the 26-offset list versus the spec's neighbor set. -/

theorem mem_neighborDeltas {d1 d2 d3 : ℤ} :
    ((d1, d2, d3) : ℤ × ℤ × ℤ) ∈ neighborDeltas ↔
      (d1 = -1 ∨ d1 = 0 ∨ d1 = 1) ∧ (d2 = -1 ∨ d2 = 0 ∨ d2 = 1) ∧
        (d3 = -1 ∨ d3 = 0 ∨ d3 = 1) ∧ ¬(d1 = 0 ∧ d2 = 0 ∧ d3 = 0) := by
  simp only [neighborDeltas, List.mem_filter, List.mem_flatMap, List.mem_map,
    List.mem_cons, List.not_mem_nil, or_false, Prod.mk.injEq, decide_eq_true_eq,
    ne_eq, not_and]
  constructor
  · rintro ⟨⟨dx, hdx, dy, hdy, dz, hdz, rfl, rfl, rfl⟩, hne⟩
    exact ⟨hdx, hdy, hdz, hne⟩
  · rintro ⟨h1, h2, h3, hne⟩
    exact ⟨⟨d1, h1, d2, h2, d3, h3, rfl, rfl, rfl⟩, hne⟩

theorem neighborDeltas_nodup : neighborDeltas.Nodup := by decide

theorem shift_injective (c : CellPosition) :
    Function.Injective fun d : ℤ × ℤ × ℤ =>
      ((c.1 + d.1, c.2.1 + d.2.1, c.2.2 + d.2.2) : CellPosition) := by
  rintro ⟨a1, a2, a3⟩ ⟨b1, b2, b3⟩ h
  simp only [Prod.mk.injEq] at h ⊢
  omega

theorem mem_neighborsSpec {c1 c2 c3 q1 q2 q3 : ℤ} :
    ((q1, q2, q3) : CellPosition) ∈ neighborsSpec (c1, c2, c3) ↔
      ¬(q1 = c1 ∧ q2 = c2 ∧ q3 = c3) ∧ c1 - 1 ≤ q1 ∧ q1 ≤ c1 + 1 ∧
        c2 - 1 ≤ q2 ∧ q2 ≤ c2 + 1 ∧ c3 - 1 ≤ q3 ∧ q3 ≤ c3 + 1 := by
  unfold neighborsSpec
  simp only [Finset.mem_erase, Finset.mem_product, Finset.mem_Icc, Prod.mk.injEq,
    ne_eq, not_and]
  tauto

theorem toFinset_shift (c : CellPosition) :
    (neighborDeltas.map fun d =>
        ((c.1 + d.1, c.2.1 + d.2.1, c.2.2 + d.2.2) : CellPosition)).toFinset =
      neighborsSpec c := by
  ext q
  obtain ⟨q1, q2, q3⟩ := q
  obtain ⟨c1, c2, c3⟩ := c
  rw [List.mem_toFinset, List.mem_map, mem_neighborsSpec]
  constructor
  · rintro ⟨⟨d1, d2, d3⟩, hd, he⟩
    rw [mem_neighborDeltas] at hd
    obtain ⟨h1, h2, h3, hne⟩ := hd
    simp only [Prod.mk.injEq] at he
    refine ⟨?_, by omega, by omega, by omega, by omega, by omega, by omega⟩
    intro h
    exact hne (by omega)
  · rintro ⟨hne, hb1, hb2, hb3, hb4, hb5, hb6⟩
    refine ⟨(q1 - c1, q2 - c2, q3 - c3), ?_, ?_⟩
    · rw [mem_neighborDeltas]
      exact ⟨by omega, by omega, by omega, fun h => hne (by omega)⟩
    · simp only [Prod.mk.injEq]
      omega

theorem length_filter_eq_card {α : Type*} [DecidableEq α] {l : List α} (hl : l.Nodup)
    (p : α → Prop) [DecidablePred p] :
    (l.filter fun a => p a).length = (l.toFinset.filter p).card := by
  classical
  induction l with
  | nil => simp
  | cons a t ih =>
      rw [List.nodup_cons] at hl
      have hat : a ∉ t.toFinset.filter p := by
        rw [Finset.mem_filter, List.mem_toFinset]
        exact fun h => hl.1 h.1
      by_cases hp : p a
      · rw [List.filter_cons_of_pos (by simpa using hp), List.toFinset_cons,
          Finset.filter_insert, if_pos hp, List.length_cons, ih hl.2,
          Finset.card_insert_of_not_mem hat]
      · rw [List.filter_cons_of_neg (by simpa using hp), List.toFinset_cons,
          Finset.filter_insert, if_neg hp, ih hl.2]

theorem countNeighbors_eq_card (pos : CellPosition) (l : List Key) :
    countNeighbors pos l =
      ((neighborsSpec pos).filter fun q => serializePosition q ∈ l).card := by
  classical
  have hnd : (neighborDeltas.map fun d =>
      ((pos.1 + d.1, pos.2.1 + d.2.1, pos.2.2 + d.2.2) : CellPosition)).Nodup :=
    neighborDeltas_nodup.map (shift_injective pos)
  have h1 := length_filter_eq_card hnd (fun q : CellPosition => serializePosition q ∈ l)
  rw [toFinset_shift] at h1
  rw [← h1, List.filter_map, List.length_map]
  rfl

theorem countNeighbors_le (pos : CellPosition) (l : List Key) :
    countNeighbors pos l ≤ 26 := by
  unfold countNeighbors
  calc (neighborDeltas.filter fun d =>
        serializePosition (pos.1 + d.1, pos.2.1 + d.2.1, pos.2.2 + d.2.2) ∈ l).length
      ≤ neighborDeltas.length := List.length_filter_le _ _
    _ = 26 := by decide

theorem mem_serialize_iff {S : Finset CellPosition} {l : List Key}
    (hl : l.toFinset = S.image serializePosition) (c : CellPosition) :
    serializePosition c ∈ l ↔ c ∈ S := by
  constructor
  · intro hq
    have h2 : serializePosition c ∈ l.toFinset := List.mem_toFinset.mpr hq
    rw [hl, Finset.mem_image] at h2
    obtain ⟨a, ha, hac⟩ := h2
    rwa [← serializePosition_injective hac]
  · intro hq
    have h2 : serializePosition c ∈ S.image serializePosition :=
      Finset.mem_image_of_mem _ hq
    rw [← hl, List.mem_toFinset] at h2
    exact h2

theorem countNeighbors_wf {S : Finset CellPosition} {l : List Key}
    (hl : l.toFinset = S.image serializePosition) (pos : CellPosition) :
    countNeighbors pos l = countActiveNeighborsSpec pos S := by
  classical
  rw [countNeighbors_eq_card]
  unfold countActiveNeighborsSpec
  congr 1
  apply Finset.filter_congr
  intro q _
  exact mem_serialize_iff hl q

/-! Bridging lemmas: the candidate set and the generation step. -/

theorem mem_shiftList {c q : CellPosition} :
    q ∈ (neighborDeltas.map fun d =>
        ((c.1 + d.1, c.2.1 + d.2.1, c.2.2 + d.2.2) : CellPosition)) ↔
      q ∈ neighborsSpec c := by
  rw [← toFinset_shift c, List.mem_toFinset]

theorem not_outOfBounds_iff {g : ℤ} {q : CellPosition} :
    ¬(q.1 < 0 ∨ g ≤ q.1 ∨ q.2.1 < 0 ∨ g ≤ q.2.1 ∨ q.2.2 < 0 ∨ g ≤ q.2.2) ↔
      inBoundsSpec g q := by
  unfold inBoundsSpec
  omega

theorem neighborKeysInBounds_serialize (gridSize : ℤ) (c : CellPosition) :
    neighborKeysInBounds gridSize (serializePosition c) =
      ((neighborsSpec c).filter (inBoundsSpec gridSize)).image serializePosition := by
  classical
  unfold neighborKeysInBounds
  rw [deserialize_serialize]
  ext k
  rw [List.mem_toFinset, List.mem_map, Finset.mem_image]
  constructor
  · rintro ⟨q, hq, rfl⟩
    rw [List.mem_filter] at hq
    obtain ⟨hq1, hq2⟩ := hq
    rw [mem_shiftList] at hq1
    refine ⟨q, ?_, rfl⟩
    rw [Finset.mem_filter]
    rw [decide_eq_true_eq] at hq2
    exact ⟨hq1, not_outOfBounds_iff.mp hq2⟩
  · rintro ⟨q, hq, rfl⟩
    rw [Finset.mem_filter] at hq
    refine ⟨q, ?_, rfl⟩
    rw [List.mem_filter, mem_shiftList]
    refine ⟨hq.1, ?_⟩
    rw [decide_eq_true_eq]
    exact not_outOfBounds_iff.mpr hq.2

theorem mem_foldr_union {β : Type*} (f : β → Finset Key) (l : List β) (k : Key) :
    k ∈ l.foldr (fun c acc => f c ∪ acc) ∅ ↔ ∃ c ∈ l, k ∈ f c := by
  induction l with
  | nil => simp
  | cons c rest ih => simp [List.foldr_cons, Finset.mem_union, ih]

theorem cellsToCheck_eq {S : Finset CellPosition} {l : List Key}
    (hl : l.toFinset = S.image serializePosition) (N : ℤ) (r : Bool) (sp : ℚ) :
    cellsToCheck ⟨l, N, r, sp⟩ = (candidatesSpec S N).image serializePosition := by
  classical
  unfold cellsToCheck candidatesSpec
  dsimp only
  rw [Finset.image_union, hl]
  congr 1
  ext k
  rw [mem_foldr_union, Finset.mem_image]
  constructor
  · rintro ⟨cell, hcell, hk⟩
    have h2 : cell ∈ l.toFinset := List.mem_toFinset.mpr hcell
    rw [hl, Finset.mem_image] at h2
    obtain ⟨c, hc, rfl⟩ := h2
    rw [neighborKeysInBounds_serialize, Finset.mem_image] at hk
    obtain ⟨q, hq, rfl⟩ := hk
    exact ⟨q, Finset.mem_biUnion.mpr ⟨c, hc, hq⟩, rfl⟩
  · rintro ⟨q, hq, rfl⟩
    rw [Finset.mem_biUnion] at hq
    obtain ⟨c, hc, hq⟩ := hq
    refine ⟨serializePosition c, ?_, ?_⟩
    · rw [← List.mem_toFinset, hl]
      exact Finset.mem_image_of_mem _ hc
    · rw [neighborKeysInBounds_serialize]
      exact Finset.mem_image_of_mem _ hq

theorem computeNextGeneration_eq_stepSpec {S : Finset CellPosition} {l : List Key}
    (hl : l.toFinset = S.image serializePosition) (N : ℤ) (r : Bool) (sp : ℚ) :
    computeNextGeneration ⟨l, N, r, sp⟩ = (stepSpec S N).image serializePosition := by
  classical
  unfold computeNextGeneration stepSpec
  dsimp only
  rw [cellsToCheck_eq hl N r sp, Finset.filter_image]
  congr 1
  apply Finset.filter_congr
  intro c _
  rw [deserialize_serialize, countNeighbors_wf hl, mem_serialize_iff hl]

/-- Membership in one generation step, for an arbitrary game state. -/
theorem mem_computeNextGeneration {s : GameState} {k : Key} :
    k ∈ computeNextGeneration s ↔
      (k ∈ s.activeCells ∨
          ∃ c ∈ s.activeCells, k ∈ neighborKeysInBounds s.gridSize c) ∧
        ((k ∈ s.activeCells ∧
            4 ≤ countNeighbors (deserializePosition k) s.activeCells ∧
            countNeighbors (deserializePosition k) s.activeCells ≤ 6) ∨
          (k ∉ s.activeCells ∧
            5 ≤ countNeighbors (deserializePosition k) s.activeCells ∧
            countNeighbors (deserializePosition k) s.activeCells ≤ 7)) := by
  unfold computeNextGeneration cellsToCheck
  rw [Finset.mem_filter, Finset.mem_union, List.mem_toFinset, mem_foldr_union]

theorem computeNextGeneration_congr {s1 s2 : GameState}
    (hA : ∀ k : Key, k ∈ s1.activeCells ↔ k ∈ s2.activeCells)
    (hg : s1.gridSize = s2.gridSize) :
    computeNextGeneration s1 = computeNextGeneration s2 := by
  have hcount : ∀ p : CellPosition,
      countNeighbors p s1.activeCells = countNeighbors p s2.activeCells := by
    intro p
    unfold countNeighbors
    congr 1
    apply List.filter_congr
    intro d _
    rw [decide_eq_decide]
    exact hA _
  ext k
  rw [mem_computeNextGeneration, mem_computeNextGeneration]
  simp only [hA, hcount, hg]

/-! Bridging lemmas: degenerate grids, seeding, and bounds preservation. -/

theorem neighborKeysInBounds_empty {N : ℤ} (hN : N ≤ 0) (cell : Key) :
    neighborKeysInBounds N cell = ∅ := by
  unfold neighborKeysInBounds
  rw [Finset.eq_empty_iff_forall_not_mem]
  intro k hk
  rw [List.mem_toFinset, List.mem_map] at hk
  obtain ⟨q, hq, _⟩ := hk
  rw [List.mem_filter, decide_eq_true_eq] at hq
  exact hq.2 (by omega)

theorem generateRandomCells_nonpos {N : ℤ} (hN : N ≤ 0) (rand : ℕ → ℚ) :
    generateRandomCells N rand = ∅ := by
  unfold generateRandomCells
  have hcube : (N : ℚ) * N * N * (1 / 10) ≤ 0 := by
    have hN0 : (N : ℚ) ≤ 0 := by exact_mod_cast hN
    nlinarith [mul_self_nonneg (N : ℚ)]
  have hfloor : ⌊(N : ℚ) * N * N * (1 / 10)⌋ ≤ 0 := by
    calc ⌊(N : ℚ) * N * N * (1 / 10)⌋ ≤ ⌊(0 : ℚ)⌋ :=
          Int.floor_le_floor hcube
      _ = 0 := Int.floor_zero
  rw [Int.toNat_of_nonpos hfloor]
  rfl

theorem generateRandomCells_mem {N : ℤ} (hN : 1 ≤ N) {rand : ℕ → ℚ}
    (hr : ∀ i, 0 ≤ rand i ∧ rand i < 1) :
    ∀ k ∈ generateRandomCells N rand, ∃ p : CellPosition,
      k = serializePosition p ∧ inBoundsSpec N p := by
  intro k hk
  unfold generateRandomCells at hk
  rw [List.mem_toFinset, List.mem_map] at hk
  obtain ⟨i, _, rfl⟩ := hk
  have hNQ : (0 : ℚ) < (N : ℚ) := by exact_mod_cast (by omega : (0 : ℤ) < N)
  have hax : ∀ j : ℕ, 0 ≤ ⌊rand j * (N : ℚ)⌋ ∧ ⌊rand j * (N : ℚ)⌋ < N := by
    intro j
    constructor
    · rw [Int.le_floor]
      push_cast
      exact mul_nonneg (hr j).1 hNQ.le
    · rw [Int.floor_lt]
      exact mul_lt_of_lt_one_left hNQ (hr j).2
  refine ⟨(⌊rand (3 * i) * (N : ℚ)⌋, ⌊rand (3 * i + 1) * (N : ℚ)⌋,
    ⌊rand (3 * i + 2) * (N : ℚ)⌋), rfl, ?_⟩
  unfold inBoundsSpec
  exact ⟨(hax _).1, (hax _).2, (hax _).1, (hax _).2, (hax _).1, (hax _).2⟩

theorem generateRandomCells_card (N : ℤ) (rand : ℕ → ℚ) :
    (generateRandomCells N rand).card ≤ ⌊(N : ℚ) * N * N * (1 / 10)⌋.toNat := by
  unfold generateRandomCells
  calc ((List.range (⌊(N : ℚ) * N * N * (1 / 10)⌋.toNat)).map _).toFinset.card
      ≤ ((List.range (⌊(N : ℚ) * N * N * (1 / 10)⌋.toNat)).map
          fun i => serializePosition
            (⌊rand (3 * i) * (N : ℚ)⌋, ⌊rand (3 * i + 1) * (N : ℚ)⌋,
             ⌊rand (3 * i + 2) * (N : ℚ)⌋)).length := List.toFinset_card_le _
    _ = (⌊(N : ℚ) * N * N * (1 / 10)⌋.toNat) := by
        rw [List.length_map, List.length_range]

theorem step_preserves_bounds {S : Finset CellPosition} {l : List Key}
    (hl : l.toFinset = S.image serializePosition) {N : ℤ}
    (hS : ∀ c ∈ S, inBoundsSpec N c) (r : Bool) (sp : ℚ) :
    ∀ k ∈ computeNextGeneration ⟨l, N, r, sp⟩,
      ∃ c : CellPosition, k = serializePosition c ∧ inBoundsSpec N c := by
  intro k hk
  rw [computeNextGeneration_eq_stepSpec hl N r sp, Finset.mem_image] at hk
  obtain ⟨c, hc, rfl⟩ := hk
  refine ⟨c, rfl, ?_⟩
  unfold stepSpec at hc
  rw [Finset.mem_filter] at hc
  have hcand := hc.1
  unfold candidatesSpec at hcand
  rw [Finset.mem_union] at hcand
  rcases hcand with h | h
  · exact hS c h
  · rw [Finset.mem_biUnion] at h
    obtain ⟨a, _, ha⟩ := h
    rw [Finset.mem_filter] at ha
    exact ha.2

/-! Claim theorems. -/

/-- C1: for every active set and every grid size, `computeNextGeneration`
returns exactly the serialized image of the spec-level step: the candidate
set is the active cells (included unconditionally, even out of bounds)
unioned with the in-bounds neighbors of active cells, and a candidate is in
the result iff it is alive with 4..6 active neighbors or dead with 5..7;
the result replaces the previous active set wholesale. -/
theorem claim_C1_step_refines_spec (S : Finset CellPosition) (N : ℤ) (r : Bool) (sp : ℚ)
    (l : List Key) (hl : l.toFinset = S.image serializePosition) :
    computeNextGeneration ⟨l, N, r, sp⟩ = (stepSpec S N).image serializePosition :=
  computeNextGeneration_eq_stepSpec hl N r sp

theorem claim_C1_witness :
    ([serializePosition ((5 : ℤ), (5 : ℤ), (5 : ℤ))].toFinset =
        ({((5 : ℤ), (5 : ℤ), (5 : ℤ))} : Finset CellPosition).image serializePosition) ∧
      computeNextGeneration ⟨[serializePosition ((5 : ℤ), (5 : ℤ), (5 : ℤ))], 10, true, 1⟩ =
        (stepSpec {((5 : ℤ), (5 : ℤ), (5 : ℤ))} 10).image serializePosition :=
  ⟨by decide, claim_C1_step_refines_spec {((5 : ℤ), (5 : ℤ), (5 : ℤ))} 10 true 1 _ (by decide)⟩

/-- C2: for every coordinate and every active set, `countNeighbors` equals
the number of the 26 surrounding coordinates (excluding the cell itself)
whose serialized keys are in the active set, with no bounds filtering; in
particular the count is at most 26. -/
theorem claim_C2_count_neighbors (pos : CellPosition) (active : List Key) :
    countNeighbors pos active =
        ((neighborsSpec pos).filter fun q => serializePosition q ∈ active).card ∧
      countNeighbors pos active ≤ 26 :=
  ⟨countNeighbors_eq_card pos active, countNeighbors_le pos active⟩

/-- C3: for every integer triple, including negative components,
deserializing its serialization returns the triple itself; serialization is
injective, so the codec is a bijection onto its key range. -/
theorem claim_C3_codec_bijection :
    (∀ p : CellPosition, deserializePosition (serializePosition p) = p) ∧
      Function.Injective serializePosition :=
  ⟨deserialize_serialize, serializePosition_injective⟩

/-- C4: for every grid size at most 0, `generateRandomCells` returns the
empty set, and `computeNextGeneration` never produces a key that was not
already in the active set (no births, no failure). -/
theorem claim_C4_degenerate_grid (N : ℤ) (hN : N ≤ 0) (rand : ℕ → ℚ)
    (l : List Key) (r : Bool) (sp : ℚ) :
    generateRandomCells N rand = ∅ ∧
      ∀ k ∈ computeNextGeneration ⟨l, N, r, sp⟩, k ∈ l := by
  refine ⟨generateRandomCells_nonpos hN rand, ?_⟩
  intro k hk
  rw [mem_computeNextGeneration] at hk
  rcases hk.1 with h | ⟨c, _, hc⟩
  · exact h
  · rw [neighborKeysInBounds_empty hN] at hc
    exact absurd hc (Finset.not_mem_empty k)

theorem claim_C4_witness :
    ((0 : ℤ) ≤ 0) ∧ (generateRandomCells 0 (fun _ => 0) = ∅ ∧
      ∀ k ∈ computeNextGeneration ⟨[], 0, false, 1⟩, k ∈ ([] : List Key)) :=
  ⟨by decide, claim_C4_degenerate_grid 0 (by decide) (fun _ => 0) [] false 1⟩

/-- C5: for every grid size N at least 1 and every outcome of the random
source, every key returned by `generateRandomCells` serializes a coordinate
with each axis in [0, N), and the cardinality is at most
floor(N^3 * 0.1). -/
theorem claim_C5_seeding_bounds (N : ℤ) (hN : 1 ≤ N) (rand : ℕ → ℚ)
    (hr : ∀ i, 0 ≤ rand i ∧ rand i < 1) :
    (∀ k ∈ generateRandomCells N rand, ∃ p : CellPosition,
        k = serializePosition p ∧ inBoundsSpec N p) ∧
      (generateRandomCells N rand).card ≤ (⌊(N : ℚ) ^ 3 * (1 / 10)⌋).toNat := by
  refine ⟨generateRandomCells_mem hN hr, ?_⟩
  have h3 : ((N : ℚ)) ^ 3 * (1 / 10) = (N : ℚ) * N * N * (1 / 10) := by ring
  rw [h3]
  exact generateRandomCells_card N rand

theorem claim_C5_witness :
    ((1 : ℤ) ≤ 3 ∧ ∀ i : ℕ, (0 : ℚ) ≤ (fun _ : ℕ => (0 : ℚ)) i ∧
        (fun _ : ℕ => (0 : ℚ)) i < 1) ∧
      ((∀ k ∈ generateRandomCells 3 (fun _ => 0), ∃ p : CellPosition,
          k = serializePosition p ∧ inBoundsSpec 3 p) ∧
        (generateRandomCells 3 (fun _ => 0)).card ≤ (⌊((3 : ℤ) : ℚ) ^ 3 * (1 / 10)⌋).toNat) :=
  ⟨⟨by decide, fun i => by norm_num⟩,
    claim_C5_seeding_bounds 3 (by decide) (fun _ => 0) (fun i => by norm_num)⟩

/-- C6: for every grid size, stepping the empty active set yields the empty
set. -/
theorem claim_C6_empty_stays_empty (N : ℤ) (r : Bool) (sp : ℚ) :
    computeNextGeneration ⟨[], N, r, sp⟩ = ∅ := by
  unfold computeNextGeneration cellsToCheck
  simp

/-- C7: `computeNextGeneration` is deterministic and iteration-order
independent: two states whose active sets are set-equal (as sets of keys)
and whose grid sizes agree produce equal result sets, whatever the insertion
order, `running` flag, or `speed`. -/
theorem claim_C7_determinism (s1 s2 : GameState)
    (hA : s1.activeCells.toFinset = s2.activeCells.toFinset)
    (hg : s1.gridSize = s2.gridSize) :
    computeNextGeneration s1 = computeNextGeneration s2 :=
  computeNextGeneration_congr
    (fun k => by rw [← List.mem_toFinset, hA, List.mem_toFinset]) hg

theorem claim_C7_witness :
    (([serializePosition ((0 : ℤ), (0 : ℤ), (0 : ℤ)),
          serializePosition (1, 1, 1)] : List Key).toFinset =
        ([serializePosition ((1 : ℤ), (1 : ℤ), (1 : ℤ)),
          serializePosition (0, 0, 0)] : List Key).toFinset ∧ ((5 : ℤ) = 5)) ∧
      computeNextGeneration
          ⟨[serializePosition (0, 0, 0), serializePosition (1, 1, 1)], 5, true, 1⟩ =
        computeNextGeneration
          ⟨[serializePosition (1, 1, 1), serializePosition (0, 0, 0)], 5, false, 2⟩ :=
  ⟨⟨by decide, rfl⟩, claim_C7_determinism _ _ (by decide) rfl⟩

set_option maxRecDepth 100000 in
/-- C8: on the five-cell cross around a dead center (5,5,5) with grid size
10, the center has exactly 5 active neighbors and is born by the step. -/
theorem claim_C8_exact_birth :
    countNeighbors ((5 : ℤ), (5 : ℤ), (5 : ℤ))
        [serializePosition (4, 5, 5), serializePosition (6, 5, 5),
          serializePosition (5, 4, 5), serializePosition (5, 6, 5),
          serializePosition (5, 5, 4)] = 5 ∧
      serializePosition ((5 : ℤ), (5 : ℤ), (5 : ℤ)) ∈
        computeNextGeneration
          ⟨[serializePosition (4, 5, 5), serializePosition (6, 5, 5),
            serializePosition (5, 4, 5), serializePosition (5, 6, 5),
            serializePosition (5, 5, 4)], 10, true, 1⟩ := by
  decide

/-- C9: stepping preserves in-bounds-ness: if every active cell has each
axis in [0, N), then so does every cell of the next generation. -/
theorem claim_C9_inbounds_invariant (S : Finset CellPosition) (N : ℤ) (r : Bool) (sp : ℚ)
    (l : List Key) (hl : l.toFinset = S.image serializePosition)
    (hS : ∀ c ∈ S, inBoundsSpec N c) :
    ∀ k ∈ computeNextGeneration ⟨l, N, r, sp⟩,
      ∃ c : CellPosition, k = serializePosition c ∧ inBoundsSpec N c :=
  step_preserves_bounds hl hS r sp

theorem claim_C9_witness :
    (([serializePosition ((1 : ℤ), (1 : ℤ), (1 : ℤ))] : List Key).toFinset =
        ({((1 : ℤ), (1 : ℤ), (1 : ℤ))} : Finset CellPosition).image serializePosition ∧
      ∀ c ∈ ({((1 : ℤ), (1 : ℤ), (1 : ℤ))} : Finset CellPosition), inBoundsSpec 3 c) ∧
      ∀ k ∈ computeNextGeneration ⟨[serializePosition ((1 : ℤ), (1 : ℤ), (1 : ℤ))], 3, true, 1⟩,
        ∃ c : CellPosition, k = serializePosition c ∧ inBoundsSpec 3 c :=
  ⟨⟨by decide, by decide⟩,
    claim_C9_inbounds_invariant {((1 : ℤ), (1 : ℤ), (1 : ℤ))} 3 true 1 _ (by decide) (by decide)⟩

/-- C10: the step depends only on the `activeCells` and `gridSize` fields of
the game state; `running` and `speed` are irrelevant to the result. -/
theorem claim_C10_only_cells_and_grid (l : List Key) (N : ℤ)
    (r1 r2 : Bool) (sp1 sp2 : ℚ) :
    computeNextGeneration ⟨l, N, r1, sp1⟩ = computeNextGeneration ⟨l, N, r2, sp2⟩ := rfl

end Conway3D
